import Mathlib

/-!
Verification of the HPACK codec wrapper (`HPACKCodec.cpp`) of the proxygen
repository, together with a model of the HPACK compression engine it drives.
Only `HPACKCodec.cpp` is available as source; the engine itself
(`HPACKEncoder`, `HPACKDecoder`, `HPACKHeader`, the tables and the integer
coder) is modelled from the specification, as marked on each definition.
-/

set_option maxHeartbeats 1000000

/-- A byte string is a list of byte values. -/
abbrev Bytes := List Nat

/-- A header field: a name and a value, both byte strings. -/
structure HeaderField where
  name : Bytes
  value : Bytes
deriving DecidableEq, Repr

/-- Helper turning a string literal into its list of byte values. -/
def str (s : String) : Bytes := s.toList.map Char.toNat

/-- ASCII lowercasing of one byte. -/
def lowerByte (b : Nat) : Nat := if 65 ≤ b ∧ b ≤ 90 then b + 32 else b

/-- ASCII lowercasing of a byte string. -/
def lowerBytes (s : Bytes) : Bytes := s.map lowerByte

/-- Modelled from the spec: `HPACKHeader`'s constructor is not in src/; per the
source comment "HPACKHeader automatically lowercases", it lowercases the name
and keeps the value. -/
def hpackHeaderOf (h : HeaderField) : HeaderField :=
  ⟨lowerBytes h.name, h.value⟩

/-- `compress::prepareHeaders` (HPACKCodec.cpp lines 29-42): converts every
supplied header to HPACK form (lowercased name) and accumulates
`name.size() + value.size() + 2` per converted header. Returns the converted
list and the uncompressed byte total. -/
def prepareHeaders : List HeaderField → List HeaderField × Nat
  | [] => ([], 0)
  | h :: rest =>
    let c := hpackHeaderOf h
    let (cs, u) := prepareHeaders rest
    (c :: cs, c.name.length + c.value.length + 2 + u)

/-- Modelled from the spec: the protocol-defined static table (indices 1..61),
entries fixed by the HPACK standard the spec's wire format refers to. -/
def staticTable : List HeaderField :=
  [⟨str ":authority", str ""⟩,
   ⟨str ":method", str "GET"⟩,
   ⟨str ":method", str "POST"⟩,
   ⟨str ":path", str "/"⟩,
   ⟨str ":path", str "/index.html"⟩,
   ⟨str ":scheme", str "http"⟩,
   ⟨str ":scheme", str "https"⟩,
   ⟨str ":status", str "200"⟩,
   ⟨str ":status", str "204"⟩,
   ⟨str ":status", str "206"⟩,
   ⟨str ":status", str "304"⟩,
   ⟨str ":status", str "400"⟩,
   ⟨str ":status", str "404"⟩,
   ⟨str ":status", str "500"⟩,
   ⟨str "accept-charset", str ""⟩,
   ⟨str "accept-encoding", str "gzip, deflate"⟩,
   ⟨str "accept-language", str ""⟩,
   ⟨str "accept-ranges", str ""⟩,
   ⟨str "accept", str ""⟩,
   ⟨str "access-control-allow-origin", str ""⟩,
   ⟨str "age", str ""⟩,
   ⟨str "allow", str ""⟩,
   ⟨str "authorization", str ""⟩,
   ⟨str "cache-control", str ""⟩,
   ⟨str "content-disposition", str ""⟩,
   ⟨str "content-encoding", str ""⟩,
   ⟨str "content-language", str ""⟩,
   ⟨str "content-length", str ""⟩,
   ⟨str "content-location", str ""⟩,
   ⟨str "content-range", str ""⟩,
   ⟨str "content-type", str ""⟩,
   ⟨str "cookie", str ""⟩,
   ⟨str "date", str ""⟩,
   ⟨str "etag", str ""⟩,
   ⟨str "expect", str ""⟩,
   ⟨str "expires", str ""⟩,
   ⟨str "from", str ""⟩,
   ⟨str "host", str ""⟩,
   ⟨str "if-match", str ""⟩,
   ⟨str "if-modified-since", str ""⟩,
   ⟨str "if-none-match", str ""⟩,
   ⟨str "if-range", str ""⟩,
   ⟨str "if-unmodified-since", str ""⟩,
   ⟨str "last-modified", str ""⟩,
   ⟨str "link", str ""⟩,
   ⟨str "location", str ""⟩,
   ⟨str "max-forwards", str ""⟩,
   ⟨str "proxy-authenticate", str ""⟩,
   ⟨str "proxy-authorization", str ""⟩,
   ⟨str "range", str ""⟩,
   ⟨str "referer", str ""⟩,
   ⟨str "refresh", str ""⟩,
   ⟨str "retry-after", str ""⟩,
   ⟨str "server", str ""⟩,
   ⟨str "set-cookie", str ""⟩,
   ⟨str "strict-transport-security", str ""⟩,
   ⟨str "transfer-encoding", str ""⟩,
   ⟨str "user-agent", str ""⟩,
   ⟨str "vary", str ""⟩,
   ⟨str "via", str ""⟩,
   ⟨str "www-authenticate", str ""⟩]

/-- Modelled from the spec: per-entry size of a dynamic-table entry,
`len(name) + len(value) + 32`. -/
def hfSize (h : HeaderField) : Nat := h.name.length + h.value.length + 32

/-- Total size of a sequence of dynamic-table entries. -/
def sizeSum : List HeaderField → Nat
  | [] => 0
  | h :: rest => hfSize h + sizeSum rest

/-- Modelled from the spec: the dynamic table, an ordered sequence of entries
(most recently inserted first) with a byte capacity. -/
structure DynTable where
  entries : List HeaderField
  capacity : Nat
deriving DecidableEq, Repr

/-- `HPACK::kTableSize`, the default table capacity used by the codec's
constructor. -/
def kTableSize : Nat := 4096

/-- The initial (empty) dynamic table of a fresh codec. -/
def dt0 : DynTable := ⟨[], kTableSize⟩

/-- Modelled from the spec: eviction from the high-index (oldest) end while the
remaining size plus the incoming entry's size exceeds capacity. The argument
list is oldest-first. -/
def evictRev (cap needed : Nat) : List HeaderField → List HeaderField
  | [] => []
  | e :: rest =>
    if cap < sizeSum (e :: rest) + needed then evictRev cap needed rest
    else e :: rest

/-- Modelled from the spec: `DynamicTable.insert` — if the field's size exceeds
capacity, clear the table (the field is not cacheable); otherwise evict oldest
entries until it fits, then prepend it at the lowest dynamic index. -/
def insertDT (dt : DynTable) (h : HeaderField) : DynTable :=
  let s := hfSize h
  if dt.capacity < s then { dt with entries := [] }
  else { dt with entries := h :: (evictRev dt.capacity s dt.entries.reverse).reverse }

/-- Modelled from the spec: `DynamicTable.setCapacity` — update the capacity
and evict immediately until the current size fits. -/
def setCapacityDT (dt : DynTable) (cap : Nat) : DynTable :=
  ⟨(evictRev cap 0 dt.entries.reverse).reverse, cap⟩

/-- Zero-based position of the first element satisfying `p`. -/
def findIn (p : HeaderField → Bool) : List HeaderField → Option Nat
  | [] => none
  | x :: rest => if p x then some 0 else (findIn p rest).map (· + 1)

/-- Modelled from the spec: `find` with an exact (name and value) match over
the union address space — static entries at indices 1..61, dynamic entries
following. -/
def findExactIdx (dt : DynTable) (h : HeaderField) : Option Nat :=
  match findIn (fun e => e == h) staticTable with
  | some j => some (j + 1)
  | none => (findIn (fun e => e == h) dt.entries).map (· + staticTable.length + 1)

/-- Modelled from the spec: name-only `find` over the union address space. -/
def findNameIdx (dt : DynTable) (n : Bytes) : Option Nat :=
  match findIn (fun e => e.name == n) staticTable with
  | some j => some (j + 1)
  | none => (findIn (fun e => e.name == n) dt.entries).map (· + staticTable.length + 1)

/-- Modelled from the spec: `lookup(index)` over the union address space;
index 0, and any index beyond the current extent, fails. -/
def lookupIdx (dt : DynTable) (i : Nat) : Option HeaderField :=
  if i = 0 then none
  else if i ≤ staticTable.length then staticTable.get? (i - 1)
  else dt.entries.get? (i - staticTable.length - 1)

/-- Modelled from the spec: the decoder's fixed safety ceiling for prefix
integers. -/
def intMax : Nat := 2 ^ 32

/-- Modelled from the spec: base-128 continuation bytes of the prefix-integer
coder, least-significant group first, high bit as continuation flag. The first
argument is fuel; any fuel at least the encoded value is enough. -/
def encodeIntCont : Nat → Nat → List Nat
  | 0, v => [v % 128]
  | fuel + 1, v =>
    if v < 128 then [v] else (128 + v % 128) :: encodeIntCont fuel (v / 128)

/-- Modelled from the spec: `encodeInt(value, prefixBits)` with the opcode bits
`flags` filling the high bits of the first byte. -/
def encodeInt (p flags v : Nat) : List Nat :=
  if v < 2 ^ p - 1 then [flags + v]
  else (flags + (2 ^ p - 1)) :: encodeIntCont (v - (2 ^ p - 1)) (v - (2 ^ p - 1))

/-- Decode-time failures of the streaming decoder. -/
inductive DecodeErr where
  | invalidIndex
  | overflow
  | truncated
  | tableSizeExceeded
  | huffmanUnsupported
deriving DecidableEq, Repr

/-- Modelled from the spec: continuation-byte decoding of a prefix integer,
failing once the accumulated value passes the safety ceiling. -/
def decodeIntCont : List Nat → Nat → Nat → Except DecodeErr (Nat × List Nat)
  | [], _, _ => .error .truncated
  | b :: rest, acc, shift =>
    let acc' := acc + (b % 128) * 2 ^ shift
    if intMax < acc' then .error .overflow
    else if b < 128 then .ok (acc', rest)
    else decodeIntCont rest acc' (shift + 7)

/-- Modelled from the spec: `decodeInt(cursor, prefixBits)`. -/
def decodeInt (p : Nat) : List Nat → Except DecodeErr (Nat × List Nat)
  | [] => .error .truncated
  | b :: rest =>
    let v0 := b % 2 ^ p
    if v0 < 2 ^ p - 1 then .ok (v0, rest) else decodeIntCont rest v0 0

/-- Modelled from the spec: string encoding — a 7-bit-prefixed length whose top
bit flags Huffman, then the octets. The Huffman codebook is protocol-defined
data the spec does not reproduce, so this model's encoder always chooses the
raw alternative (always a valid representation). -/
def encodeStr (s : Bytes) : List Nat := encodeInt 7 0 s.length ++ s

/-- Modelled from the spec: string decoding. A Huffman-flagged string cannot
be decoded by this model (the codebook is not reproduced in the spec) and is
reported as a failure; the model's encoder never emits one. -/
def decodeStr (bs : List Nat) : Except DecodeErr (Bytes × List Nat) :=
  match bs with
  | [] => .error .truncated
  | b :: _ =>
    if 128 ≤ b then .error .huffmanUnsupported
    else
      match decodeInt 7 bs with
      | .error e => .error e
      | .ok (len, rest) =>
        if rest.length < len then .error .truncated
        else .ok (rest.take len, rest.drop len)

/-- Modelled from the spec: `Encoder.encodeHeader` with the default policy —
an exact match is emitted as an indexed representation; otherwise a literal
with incremental indexing is emitted (name as an index reference when a
name-only match exists, else as a literal string) and the field is inserted
into the dynamic table. Returns the emitted bytes and the updated table. -/
def encodeHeaderB (dt : DynTable) (h : HeaderField) : List Nat × DynTable :=
  match findExactIdx dt h with
  | some i => (encodeInt 7 128 i, dt)
  | none =>
    match findNameIdx dt h.name with
    | some i => (encodeInt 6 64 i ++ encodeStr h.value, insertDT dt h)
    | none =>
      (encodeInt 6 64 0 ++ encodeStr h.name ++ encodeStr h.value, insertDT dt h)

/-- Modelled from the spec: `Encoder.encode(headerFields)` on a raw header
list — representations emitted in the given order, threading the dynamic
table. -/
def encodeBlock : List HeaderField → DynTable → List Nat × DynTable
  | [], dt => ([], dt)
  | h :: rest, dt =>
    ((encodeHeaderB dt h).1 ++ (encodeBlock rest (encodeHeaderB dt h).2).1,
     (encodeBlock rest (encodeHeaderB dt h).2).2)

/-- `HPACKCodec::encode` (HPACKCodec.cpp lines 49-56): prepare the raw headers
(lowercasing, uncompressed-size accounting) and run the engine's encode.
Returns the byte stream, the final encoder table, and the uncompressed size. -/
def codecEncode (hs : List HeaderField) (dt : DynTable) : List Nat × DynTable × Nat :=
  ((encodeBlock (prepareHeaders hs).1 dt).1,
   (encodeBlock (prepareHeaders hs).1 dt).2,
   (prepareHeaders hs).2)

/-- The maximum table capacity the decoder accepts in a table-size update
(the connection's negotiated maximum, `HPACK::kTableSize` here). -/
def maxTableCapacity : Nat := kTableSize

/-- Modelled from the spec: decode one representation from the head of the
byte window. Returns the optionally emitted field, the remaining bytes and
the updated table, or the specific failure. Opcode dispatch follows the
standard HPACK layouts the spec's wire-format section names. -/
def decodeOne (bs : List Nat) (dt : DynTable) :
    Except DecodeErr (Option HeaderField × List Nat × DynTable) :=
  match bs with
  | [] => .error .truncated
  | b :: _ =>
    if 128 ≤ b then
      match decodeInt 7 bs with
      | .error e => .error e
      | .ok (i, rest) =>
        match lookupIdx dt i with
        | none => .error .invalidIndex
        | some e => .ok (some e, rest, dt)
    else if 64 ≤ b then
      match decodeInt 6 bs with
      | .error e => .error e
      | .ok (i, rest) =>
        if i = 0 then
          match decodeStr rest with
          | .error e => .error e
          | .ok (n, rest2) =>
            match decodeStr rest2 with
            | .error e => .error e
            | .ok (v, rest3) =>
              .ok (some ⟨n, v⟩, rest3, insertDT dt ⟨n, v⟩)
        else
          match lookupIdx dt i with
          | none => .error .invalidIndex
          | some e =>
            match decodeStr rest with
            | .error er => .error er
            | .ok (v, rest2) =>
              .ok (some ⟨e.name, v⟩, rest2, insertDT dt ⟨e.name, v⟩)
    else if 32 ≤ b then
      match decodeInt 5 bs with
      | .error e => .error e
      | .ok (cap, rest) =>
        if maxTableCapacity < cap then .error .tableSizeExceeded
        else .ok (none, rest, setCapacityDT dt cap)
    else
      match decodeInt 4 bs with
      | .error e => .error e
      | .ok (i, rest) =>
        if i = 0 then
          match decodeStr rest with
          | .error e => .error e
          | .ok (n, rest2) =>
            match decodeStr rest2 with
            | .error e => .error e
            | .ok (v, rest3) => .ok (some ⟨n, v⟩, rest3, dt)
        else
          match lookupIdx dt i with
          | none => .error .invalidIndex
          | some e =>
            match decodeStr rest with
            | .error er => .error er
            | .ok (v, rest2) => .ok (some ⟨e.name, v⟩, rest2, dt)

/-- Modelled from the spec: the streaming decode loop — fields are pushed to
the sink as soon as each is complete; the loop ends with exactly one terminal
outcome, success when the window is exhausted, or the specific failure, which
aborts the remaining input with no further field emission. The fuel argument
bounds the iteration count; one unit per representation is enough since every
representation occupies at least one byte. -/
def decodeLoop : Nat → List Nat → DynTable →
    List HeaderField × DynTable × Except DecodeErr Unit
  | _, [], dt => ([], dt, .ok ())
  | 0, _ :: _, dt => ([], dt, .error .truncated)
  | fuel + 1, b :: rest, dt =>
    match decodeOne (b :: rest) dt with
    | .error e => ([], dt, .error e)
    | .ok (emitted, rest2, dt') =>
      (emitted.toList ++ (decodeLoop fuel rest2 dt').1,
       (decodeLoop fuel rest2 dt').2.1,
       (decodeLoop fuel rest2 dt').2.2)

/-- `HPACKCodec::decodeStreaming` (HPACKCodec.cpp lines 185-191) delegating to
the engine's streaming decode: the emitted field sequence, the final decoder
table, and the single terminal signal delivered to the sink. -/
def decodeBlock (bs : List Nat) (dt : DynTable) :
    List HeaderField × DynTable × Except DecodeErr Unit :=
  decodeLoop bs.length bs dt

/-- The codec's mutable state: the encoder-side and decoder-side dynamic
tables and the `EncodedSize` counters (`encodedSize_`). -/
structure CodecState where
  encTable : DynTable
  decTable : DynTable
  uncompressed : Nat
  compressed : Nat
  compressedBlock : Nat
deriving DecidableEq, Repr

/-- A fresh codec: both tables empty at `kTableSize`, all counters zero
(`HPACKCodec::HPACKCodec`). -/
def cs0 : CodecState := ⟨dt0, dt0, 0, 0, 0⟩

/-- One telemetry record delivered to the optional stats sink. -/
inductive StatsEvent where
  | encodeRecord (uncompressed compressed compressedBlock : Nat)
  | decodeRecord (inputLength : Nat)
deriving DecidableEq, Repr

/-- `HPACKCodec::encode(vector<Header>&)` (HPACKCodec.cpp lines 49-56), the
overload returning an IOBuf chain: prepare the headers, set
`encodedSize_.uncompressed`, run the engine encode, then
`recordCompressedSize(buf)` (lines 163-174): `compressed` is reset to the
chain length and `compressedBlock` accumulates it. Returns the produced byte
stream and the updated state. -/
def encodeRet (st : CodecState) (hs : List HeaderField) : List Nat × CodecState :=
  let (prepared, u) := prepareHeaders hs
  let (bs, dtE) := encodeBlock prepared st.encTable
  (bs, { st with
          encTable := dtE,
          uncompressed := u,
          compressed := bs.length,
          compressedBlock := st.compressedBlock + bs.length })

/-- `HPACKCodec::encode(vector<Header>&, IOBufQueue&)` (HPACKCodec.cpp lines
58-66), the overload appending to a caller-supplied queue: same preparation
and engine encode, then `recordCompressedSize(writeBuf.chainLength() -
prevSize)` (lines 176-183). Returns the queue after the append and the
updated state. -/
def encodeAppend (st : CodecState) (hs : List HeaderField) (writeBuf : List Nat) :
    List Nat × CodecState :=
  let (prepared, u) := prepareHeaders hs
  let prevSize := writeBuf.length
  let (bs, dtE) := encodeBlock prepared st.encTable
  let writeBuf' := writeBuf ++ bs
  (writeBuf', { st with
                 encTable := dtE,
                 uncompressed := u,
                 compressed := writeBuf'.length - prevSize,
                 compressedBlock := st.compressedBlock + (writeBuf'.length - prevSize) })

/-- One call into the codec: an encode of a raw header list or a streaming
decode of a byte window. -/
inductive CodecOp where
  | enc (hs : List HeaderField)
  | dec (bs : List Nat)

instance : DecidableEq (Except DecodeErr Unit) := fun a b =>
  match a, b with
  | .error e, .error f =>
    if h : e = f then isTrue (by rw [h])
    else isFalse (by intro hh; cases hh; exact h rfl)
  | .error _, .ok _ => isFalse (by intro h; cases h)
  | .ok _, .error _ => isFalse (by intro h; cases h)
  | .ok a, .ok b => isTrue (by cases a; cases b; rfl)

/-- The externally observable outcome of one codec call. -/
inductive CodecOut where
  | bytes (bs : List Nat)
  | fields (fs : List HeaderField) (terminal : Except DecodeErr Unit)
deriving DecidableEq, Repr

/-- One codec call: the observable outcome, the successor state, and the
telemetry events (emitted only when a stats sink is attached, mirroring the
`if (stats_)` guards of `recordCompressedSize` and the `streamingCb->stats`
hand-off of `decodeStreaming`). -/
def stepOp (hasStats : Bool) (st : CodecState) :
    CodecOp → CodecOut × CodecState × List StatsEvent
  | .enc hs =>
    let (bs, st') := encodeRet st hs
    (.bytes bs, st',
     if hasStats then [.encodeRecord st'.uncompressed st'.compressed st'.compressedBlock]
     else [])
  | .dec bs =>
    let (fs, dtD, r) := decodeBlock bs st.decTable
    (.fields fs r, { st with decTable := dtD },
     if hasStats then [.decodeRecord bs.length] else [])

/-- A sequence of codec calls: the outcomes, the final state, and the
telemetry log. -/
def runOps (hasStats : Bool) : List CodecOp → CodecState →
    List CodecOut × CodecState × List StatsEvent
  | [], st => ([], st, [])
  | op :: rest, st =>
    let (out, st', evs) := stepOp hasStats st op
    let (outs, stF, evsF) := runOps hasStats rest st'
    (out :: outs, stF, evs ++ evsF)

/-- Header codes the translation logic of `encodeHTTP` inspects; every other
name carries `OTHER` (`HTTP_HEADER_OTHER`). -/
inductive HCode where
  | CONNECTION
  | HOST
  | KEEP_ALIVE
  | PROXY_CONNECTION
  | TRANSFER_ENCODING
  | UPGRADE
  | SEC_WEBSOCKET_KEY
  | SEC_WEBSOCKET_ACCEPT
  | DATE
  | OTHER
deriving DecidableEq, Repr

/-- ASCII lowercasing of a character. -/
def lowerChar (c : Char) : Char :=
  if 65 ≤ c.toNat ∧ c.toNat ≤ 90 then Char.ofNat (c.toNat + 32) else c

/-- ASCII lowercasing of a string. -/
def lowerStr (s : String) : String := String.mk (s.toList.map lowerChar)

/-- Modelled from the spec: the case-insensitive name-to-code mapping
(`HTTPCommonHeaders` is not in src/); only the codes the filtering logic
inspects are distinguished, every other name maps to `OTHER`. -/
def headerCode (n : String) : HCode :=
  let l := lowerStr n
  if l = "connection" then .CONNECTION
  else if l = "host" then .HOST
  else if l = "keep-alive" then .KEEP_ALIVE
  else if l = "proxy-connection" then .PROXY_CONNECTION
  else if l = "transfer-encoding" then .TRANSFER_ENCODING
  else if l = "upgrade" then .UPGRADE
  else if l = "sec-websocket-key" then .SEC_WEBSOCKET_KEY
  else if l = "sec-websocket-accept" then .SEC_WEBSOCKET_ACCEPT
  else if l = "date" then .DATE
  else .OTHER

/-- The per-hop header codes `encodeHTTP` skips (`s_perHopHeaderCodes`,
HPACKCodec.cpp lines 117-129). -/
def perHopCode : HCode → Bool
  | .CONNECTION => true
  | .HOST => true
  | .KEEP_ALIVE => true
  | .PROXY_CONNECTION => true
  | .TRANSFER_ENCODING => true
  | .UPGRADE => true
  | .SEC_WEBSOCKET_KEY => true
  | .SEC_WEBSOCKET_ACCEPT => true
  | _ => false

/-- The canonical header name a known code stands for when emitted through
`encodeHeader(code, value)`; an `OTHER` header is emitted under its supplied
name. -/
def codeEmitName : HCode → String → String
  | .CONNECTION, _ => "connection"
  | .HOST, _ => "host"
  | .KEEP_ALIVE, _ => "keep-alive"
  | .PROXY_CONNECTION, _ => "proxy-connection"
  | .TRANSFER_ENCODING, _ => "transfer-encoding"
  | .UPGRADE, _ => "upgrade"
  | .SEC_WEBSOCKET_KEY, _ => "sec-websocket-key"
  | .SEC_WEBSOCKET_ACCEPT, _ => "sec-websocket-accept"
  | .DATE, _ => "date"
  | .OTHER, n => n

/-- Whether a name is shaped like a pseudo-header (`name[0] == ':'`). -/
def startsWithColon (s : String) : Bool := s.toList.head? == some ':'

/-- The structured message `encodeHTTP` consumes: the `HTTPMessage` fields the
translation reads (`HTTPMessage` itself is not in src/). -/
structure HTTPMsg where
  isRequest : Bool
  egressWebsocketUpgrade : Bool
  method : String
  secure : Bool
  url : String
  statusCode : Nat
  headers : List (String × String)

/-- Modelled from the spec: `HTTPHeaders::getSingleOrEmpty(HTTP_HEADER_HOST)`
is not in src/; it yields the Host value when exactly one Host header exists,
else the empty string. -/
def getSingleOrEmptyHost (hs : List (String × String)) : String :=
  match hs.filter (fun p => headerCode p.1 == .HOST) with
  | [p] => p.2
  | _ => ""

/-- Modelled from the spec: `HTTPMessage::formatDateHeader()` renders the
current date; its content is time-dependent and never affects control flow, so
it is represented by an opaque constant. -/
def formatDateHeader : String := "<current-date>"

/-- The per-header body of the `forEachWithCode` loop of `encodeHTTP`
(HPACKCodec.cpp lines 114-149): skip per-hop, empty and pseudo-shaped names;
otherwise emit the field (guarded once more by the redundant inner check) and
overwrite the date flag with whether this header is `Date` — an assignment,
not a disjunction, exactly as in the source. Returns the emitted fields and
the final flag. -/
def encodeRegularAux : List (String × String) → Bool → List (String × String) × Bool
  | [], hasDate => ([], hasDate)
  | (n, v) :: rest, hasDate =>
    let code := headerCode n
    if perHopCode code || n == "" || startsWithColon n then
      encodeRegularAux rest hasDate
    else
      ((if (!(n == "") && !startsWithColon n) && !(code == HCode.HOST) then
          [(codeEmitName code n, v)]
        else []) ++ (encodeRegularAux rest (code == HCode.DATE)).1,
       (encodeRegularAux rest (code == HCode.DATE)).2)

/-- `HPACKCodec::encodeHTTP` (HPACKCodec.cpp lines 68-160) as the ordered
sequence of header fields handed to the engine's `encodeHeader`:
request pseudo-headers (`:method`, or CONNECT plus `:protocol` for a websocket
upgrade; `:scheme` and `:path` unless a bare CONNECT; `:authority` when a
single Host value exists) or the response `:status`; then the filtered regular
fields; then a synthesized date for a response without a date flag. -/
def encodeHTTPFields (msg : HTTPMsg) : List (String × String) :=
  let pseudo :=
    if msg.isRequest then
      (if msg.egressWebsocketUpgrade then
         [(":method", "CONNECT"), (":protocol", "websocket")]
       else [(":method", msg.method)]) ++
      (if !(msg.method == "CONNECT") || msg.egressWebsocketUpgrade then
         [(":scheme", if msg.secure then "https" else "http"), (":path", msg.url)]
       else []) ++
      (let host := getSingleOrEmptyHost msg.headers
       if !(host == "") then [(":authority", host)] else [])
    else
      if msg.egressWebsocketUpgrade then [(":status", "200")]
      else [(":status", toString msg.statusCode)]
  pseudo ++ (encodeRegularAux msg.headers false).1 ++
    (if !msg.isRequest && !(encodeRegularAux msg.headers false).2 then
       [("date", formatDateHeader)]
     else [])

/-- The canonicalized form of a header list as claimed for the raw-list
round-trip: names lowercased, pseudo-headers relocated to the front, per-hop
fields removed (claim-side definition, following the spec's words, for
comparison with what the code does). -/
def specCanonicalize (hs : List HeaderField) : List HeaderField :=
  let lowered := hs.map (fun h => (⟨lowerBytes h.name, h.value⟩ : HeaderField))
  let perHopNames : List Bytes :=
    [str "connection", str "host", str "keep-alive", str "proxy-connection",
     str "transfer-encoding", str "upgrade", str "sec-websocket-key",
     str "sec-websocket-accept"]
  let kept := lowered.filter (fun h => !(perHopNames.contains h.name))
  let isPseudo : HeaderField → Bool := fun h => h.name.head? == some 58
  kept.filter isPseudo ++ kept.filter (fun h => !(isPseudo h))

/-- The concrete response whose `Date` header is followed by another header. -/
def msgDateBug : HTTPMsg :=
  ⟨false, false, "GET", true, "/", 200,
   [("Date", "Mon, 01 Jan 2024 00:00:00 GMT"), ("X-Foo", "bar")]⟩

/-- The concrete raw header list used to exercise the round-trip: a per-hop
header with an uppercase name. -/
def rtInput : List HeaderField := [⟨str "Connection", str "keep-alive"⟩]

/-- The converted list `prepareHeaders` builds is the input with each field
passed through the `HPACKHeader` conversion, in order and in full. -/
lemma prepareHeaders_list (hs : List HeaderField) :
    (prepareHeaders hs).1 = hs.map hpackHeaderOf := by
  induction hs with
  | nil => rfl
  | cons h rest ih => simp [prepareHeaders, ih]

/-- Claim C7: every encoded header field contributes
`len(name) + len(value) + 2` to the reported uncompressed byte count,
independent of the representation chosen later, and for a raw header list the
reported total is the sum of this quantity over all fields. -/
theorem prepareHeaders_uncompressed_sum (hs : List HeaderField) :
    (prepareHeaders hs).2 =
      (hs.map (fun h => h.name.length + h.value.length + 2)).sum := by
  induction hs with
  | nil => rfl
  | cons h rest ih =>
    simp [prepareHeaders, hpackHeaderOf, lowerBytes, ih]

/-- Claim C6 (counterexample): a pseudo-header-shaped name inside a raw header
list is not dropped by `encode` — the encoded output is nonempty and decoding
it yields the offending field back. -/
theorem prepareHeaders_pseudo_kept_cx :
    (codecEncode [⟨str ":foo", str "bar"⟩] dt0).1 ≠ [] ∧
      (decodeBlock (codecEncode [⟨str ":foo", str "bar"⟩] dt0).1 dt0).1 =
        [⟨str ":foo", str "bar"⟩] := by decide

/-- Claim C6 (amended): the raw-list encode path drops nothing — every
supplied field, a pseudo-header-shaped or empty name included, is converted
(name lowercased) and handed to the engine in order; such fields are filtered
only on the structured-message path. -/
theorem prepareHeaders_drops_nothing (hs : List HeaderField) :
    (prepareHeaders hs).1 = hs.map hpackHeaderOf :=
  prepareHeaders_list hs

/-- Claim C10: for the same header list and starting state, the IOBuf-chain
overload and the IOBufQueue overload of `encode` emit the same byte sequence
(the queue overload appends it), record the same sizes, and leave the encoder
table in the same state. -/
theorem encode_overloads_equivalent (st : CodecState) (hs : List HeaderField)
    (q : List Nat) :
    (encodeAppend st hs q).1 = q ++ (encodeRet st hs).1 ∧
      (encodeAppend st hs q).2 = (encodeRet st hs).2 := by
  constructor
  · simp [encodeAppend, encodeRet]
  · simp [encodeAppend, encodeRet, Nat.add_sub_cancel_left]

/-- Claim C9 (counterexample): the `uncompressed` and `compressed` counters
are overwritten per call, so a large encode followed by a small one makes both
decrease — the counters are not all monotonically accumulated. -/
theorem encodedSize_counters_decrease_cx :
    (encodeRet (encodeRet cs0 [⟨str "a", str "b"⟩]).2 []).2.uncompressed <
        (encodeRet cs0 [⟨str "a", str "b"⟩]).2.uncompressed ∧
      (encodeRet (encodeRet cs0 [⟨str "a", str "b"⟩]).2 []).2.compressed <
        (encodeRet cs0 [⟨str "a", str "b"⟩]).2.compressed := by decide

/-- Claim C9 (amended): only the `compressedBlock` counter is monotonically
accumulated — across any sequence of codec calls it never decreases;
`uncompressed` and `compressed` are per-call values that may decrease. -/
theorem compressedBlock_monotone (hasStats : Bool) (ops : List CodecOp)
    (st : CodecState) :
    st.compressedBlock ≤ (runOps hasStats ops st).2.1.compressedBlock := by
  induction ops generalizing st with
  | nil => simp [runOps]
  | cons op rest ih =>
    cases op with
    | enc hs =>
      simp only [runOps, stepOp, encodeRet]
      refine le_trans ?_ (ih _)
      exact Nat.le_add_right _ _
    | dec bs =>
      simp only [runOps, stepOp]
      refine le_trans ?_ (ih _)
      exact Nat.le_refl _

/-- Claim C8: attaching the telemetry stats sink changes nothing observable —
for any sequence of encode and decode calls, the byte streams, the decoded
fields with their terminal signals, and the final codec state (both dynamic
tables and all counters) are identical with and without the sink. -/
theorem stats_sink_noninterference (ops : List CodecOp) (st : CodecState) :
    (runOps true ops st).1 = (runOps false ops st).1 ∧
      (runOps true ops st).2.1 = (runOps false ops st).2.1 := by
  induction ops generalizing st with
  | nil => exact ⟨rfl, rfl⟩
  | cons op rest ih =>
    cases op with
    | enc hs =>
      simp only [runOps, stepOp]
      exact ⟨by rw [(ih _).1], (ih _).2⟩
    | dec bs =>
      simp only [runOps, stepOp]
      exact ⟨by rw [(ih _).1], (ih _).2⟩

/-- Claim C5: the sink receives exactly one terminal signal carrying the
specific failure; an indexed representation with index 0 (first byte 0x80,
after one well-formed indexed field) aborts immediately with
`InvalidIndexError`, emits nothing past the failure point, and leaves the rest
of the input unprocessed, whatever bytes follow. -/
theorem decodeStreaming_invalid_index_abort (junk : List Nat) (dt : DynTable) :
    decodeBlock (130 :: 128 :: junk) dt =
      ([⟨str ":method", str "GET"⟩], dt, .error .invalidIndex) := rfl

/-- Decoding the continuation bytes produced by `encodeIntCont` recovers the
encoded value, relative to any accumulator and shift, provided the final value
stays within the safety ceiling. -/
lemma decodeIntCont_encodeIntCont (fuel : Nat) :
    ∀ (n acc shift : Nat) (rest : List Nat), n ≤ fuel →
      acc + n * 2 ^ shift ≤ intMax →
      decodeIntCont (encodeIntCont fuel n ++ rest) acc shift =
        .ok (acc + n * 2 ^ shift, rest) := by
  induction fuel with
  | zero =>
    intro n acc shift rest hfuel hbound
    have hn : n = 0 := Nat.le_zero.mp hfuel
    subst hn
    simp only [Nat.zero_mul, Nat.add_zero] at hbound
    simp [encodeIntCont, decodeIntCont, Nat.not_lt.mpr hbound]
  | succ f ih =>
    intro n acc shift rest hfuel hbound
    by_cases hsmall : n < 128
    · have hmod : n % 128 = n := Nat.mod_eq_of_lt hsmall
      simp [encodeIntCont, hsmall, decodeIntCont, hmod, Nat.not_lt.mpr hbound]
    · have hmono : acc + n % 128 * 2 ^ shift ≤ acc + n * 2 ^ shift :=
        Nat.add_le_add_left (Nat.mul_le_mul_right _ (Nat.mod_le n 128)) acc
      have hkey : n % 128 * 2 ^ shift + n / 128 * 2 ^ (shift + 7) = n * 2 ^ shift := by
        have h1 : 2 ^ (shift + 7) = 2 ^ shift * 128 := by
          rw [pow_add]; norm_num
        rw [h1]
        have h2 : n % 128 * 2 ^ shift + n / 128 * (2 ^ shift * 128) =
            (n % 128 + 128 * (n / 128)) * 2 ^ shift := by ring
        rw [h2, Nat.mod_add_div]
      have hb : (128 + n % 128) % 128 = n % 128 := by omega
      simp only [encodeIntCont, if_neg hsmall, List.cons_append, decodeIntCont, hb,
        if_neg (Nat.not_lt.mpr (le_trans hmono hbound)),
        if_neg (by omega : ¬(128 + n % 128 < 128))]
      have hfuel' : n / 128 ≤ f := by omega
      have hbound' : acc + n % 128 * 2 ^ shift + n / 128 * 2 ^ (shift + 7) ≤ intMax := by
        omega
      rw [ih (n / 128) (acc + n % 128 * 2 ^ shift) (shift + 7) rest hfuel' hbound']
      have hX : acc + n % 128 * 2 ^ shift + n / 128 * 2 ^ (shift + 7) =
          acc + n * 2 ^ shift := by omega
      rw [hX]

/-- Decoding a prefix integer produced by `encodeInt` recovers the value, for
any opcode bits that are a multiple of the prefix modulus. -/
lemma decodeInt_encodeInt (p c v : Nat) (rest : List Nat) (hv : v ≤ intMax) :
    decodeInt p (encodeInt p (c * 2 ^ p) v ++ rest) = .ok (v, rest) := by
  by_cases hsmall : v < 2 ^ p - 1
  · have hlt : v < 2 ^ p := by
      have := @Nat.one_le_two_pow p
      omega
    have hmod : (c * 2 ^ p + v) % 2 ^ p = v := by
      rw [Nat.mul_comm c (2 ^ p), Nat.mul_add_mod, Nat.mod_eq_of_lt hlt]
    simp [encodeInt, hsmall, decodeInt, hmod]
  · have hp1 : 2 ^ p - 1 < 2 ^ p := by
      have := @Nat.one_le_two_pow p
      omega
    have hmod : (c * 2 ^ p + (2 ^ p - 1)) % 2 ^ p = 2 ^ p - 1 := by
      rw [Nat.mul_comm c (2 ^ p), Nat.mul_add_mod, Nat.mod_eq_of_lt hp1]
    have hge : 2 ^ p - 1 ≤ v := Nat.le_of_not_lt hsmall
    simp only [encodeInt, if_neg hsmall, List.cons_append, decodeInt, hmod,
      lt_irrefl, if_false]
    have hres := decodeIntCont_encodeIntCont (v - (2 ^ p - 1)) (v - (2 ^ p - 1))
      (2 ^ p - 1) 0 rest le_rfl (by simp only [pow_zero, Nat.mul_one]; omega)
    rw [hres]
    have hX : 2 ^ p - 1 + (v - (2 ^ p - 1)) * 2 ^ 0 = v := by
      simp only [pow_zero, Nat.mul_one]; omega
    rw [hX]

/-- `encodeInt` always emits at least one byte, whose high bits are the opcode
bits. -/
lemma encodeInt_cons (p flags v : Nat) :
    ∃ b bt, encodeInt p flags v = b :: bt ∧ flags ≤ b ∧ b ≤ flags + (2 ^ p - 1) := by
  unfold encodeInt
  by_cases hv : v < 2 ^ p - 1
  · exact ⟨flags + v, [], by simp [hv], Nat.le_add_right _ _, by omega⟩
  · exact ⟨flags + (2 ^ p - 1), encodeIntCont (v - (2 ^ p - 1)) (v - (2 ^ p - 1)),
      by simp [hv], Nat.le_add_right _ _, le_rfl⟩

/-- Decoding the string produced by `encodeStr` recovers the octets and leaves
the remaining input untouched. -/
lemma decodeStr_encodeStr (s : Bytes) (rest : List Nat) (hlen : s.length ≤ intMax) :
    decodeStr (encodeStr s ++ rest) = .ok (s, rest) := by
  have hint := decodeInt_encodeInt 7 0 s.length (s ++ rest) hlen
  rw [Nat.zero_mul] at hint
  obtain ⟨b, bt, hE, hb1, hb2⟩ := encodeInt_cons 7 0 s.length
  have hb : b < 128 := by
    have : (2 : Nat) ^ 7 - 1 = 127 := by norm_num
    omega
  have harr : encodeStr s ++ rest = b :: (bt ++ (s ++ rest)) := by
    simp [encodeStr, hE, List.append_assoc]
  rw [harr]
  rw [hE] at hint
  simp only [List.cons_append] at hint
  simp only [decodeStr, if_neg (Nat.not_le.mpr hb), hint]
  have hlen2 : ¬((s ++ rest).length < s.length) := by
    simp [List.length_append]
  simp only [hlen2, if_false]
  rw [List.take_left, List.drop_left]

/-- A successful `findIn` returns a position inside the list whose element
satisfies the predicate. -/
lemma findIn_spec (p : HeaderField → Bool) (l : List HeaderField) (j : Nat)
    (h : findIn p l = some j) :
    j < l.length ∧ ∃ x, l.get? j = some x ∧ p x = true := by
  induction l generalizing j with
  | nil => simp [findIn] at h
  | cons a rest ih =>
    by_cases hp : p a
    · simp only [findIn, hp, if_true, Option.some.injEq] at h
      subst h
      exact ⟨by simp, a, by simp, hp⟩
    · simp only [findIn, hp, Bool.false_eq_true, if_false] at h
      rcases hf : findIn p rest with _ | k
      · rw [hf] at h; simp at h
      · rw [hf] at h
        simp only [Option.map_some', Option.some.injEq] at h
        subst h
        obtain ⟨hk, x, hx, hpx⟩ := ih k hf
        exact ⟨by simp; omega, x, by simpa using hx, hpx⟩

/-- A successful exact-match `find` yields an index in range whose lookup
returns the searched field. -/
lemma findExact_lookup (dt : DynTable) (h : HeaderField) (i : Nat)
    (hf : findExactIdx dt h = some i) :
    1 ≤ i ∧ i ≤ staticTable.length + dt.entries.length ∧
      lookupIdx dt i = some h := by
  unfold findExactIdx at hf
  rcases hs : findIn (fun e => e == h) staticTable with _ | j
  · rw [hs] at hf
    rcases hd : findIn (fun e => e == h) dt.entries with _ | j
    · rw [hd] at hf; simp at hf
    · rw [hd] at hf
      simp only [Option.map_some', Option.some.injEq] at hf
      subst hf
      obtain ⟨hjlt, x, hx, hpx⟩ := findIn_spec _ _ _ hd
      have hxh : x = h := by simpa using hpx
      subst hxh
      refine ⟨by omega, by omega, ?_⟩
      unfold lookupIdx
      rw [if_neg (by omega), if_neg (by omega),
        show j + staticTable.length + 1 - staticTable.length - 1 = j by omega]
      exact hx
  · rw [hs] at hf
    simp only [Option.some.injEq] at hf
    subst hf
    obtain ⟨hjlt, x, hx, hpx⟩ := findIn_spec _ _ _ hs
    have hxh : x = h := by simpa using hpx
    subst hxh
    refine ⟨by omega, by omega, ?_⟩
    unfold lookupIdx
    rw [if_neg (by omega), if_pos (by omega), Nat.add_sub_cancel]
    exact hx

/-- A successful name-only `find` yields an index in range whose lookup
returns an entry carrying the searched name. -/
lemma findName_lookup (dt : DynTable) (n : Bytes) (i : Nat)
    (hf : findNameIdx dt n = some i) :
    1 ≤ i ∧ i ≤ staticTable.length + dt.entries.length ∧
      ∃ e, lookupIdx dt i = some e ∧ e.name = n := by
  unfold findNameIdx at hf
  rcases hs : findIn (fun e => e.name == n) staticTable with _ | j
  · rw [hs] at hf
    rcases hd : findIn (fun e => e.name == n) dt.entries with _ | j
    · rw [hd] at hf; simp at hf
    · rw [hd] at hf
      simp only [Option.map_some', Option.some.injEq] at hf
      subst hf
      obtain ⟨hjlt, x, hx, hpx⟩ := findIn_spec _ _ _ hd
      refine ⟨by omega, by omega, x, ?_, by simpa using hpx⟩
      unfold lookupIdx
      rw [if_neg (by omega), if_neg (by omega),
        show j + staticTable.length + 1 - staticTable.length - 1 = j by omega]
      exact hx
  · rw [hs] at hf
    simp only [Option.some.injEq] at hf
    subst hf
    obtain ⟨hjlt, x, hx, hpx⟩ := findIn_spec _ _ _ hs
    refine ⟨by omega, by omega, x, ?_, by simpa using hpx⟩
    unfold lookupIdx
    rw [if_neg (by omega), if_pos (by omega), Nat.add_sub_cancel]
    exact hx

/-- Entry sizes add over concatenation. -/
lemma sizeSum_append (l1 l2 : List HeaderField) :
    sizeSum (l1 ++ l2) = sizeSum l1 + sizeSum l2 := by
  induction l1 with
  | nil => simp [sizeSum]
  | cons a rest ih =>
    simp only [List.cons_append, sizeSum, List.append_eq, ih]
    omega

/-- Entry sizes are invariant under reversal. -/
lemma sizeSum_reverse (l : List HeaderField) : sizeSum l.reverse = sizeSum l := by
  induction l with
  | nil => rfl
  | cons a rest ih =>
    simp only [List.reverse_cons, sizeSum_append, sizeSum, ih]
    omega

/-- Eviction leaves room for the incoming entry whenever the entry alone
fits. -/
lemma evictRev_fits (cap needed : Nat) (l : List HeaderField)
    (hn : needed ≤ cap) :
    sizeSum (evictRev cap needed l) + needed ≤ cap := by
  induction l with
  | nil => simpa [evictRev, sizeSum]
  | cons e rest ih =>
    by_cases hc : cap < sizeSum (e :: rest) + needed
    · simpa [evictRev, hc] using ih
    · simp only [evictRev, hc, if_false]
      omega

/-- `insert` keeps the table within capacity and never changes the
capacity. -/
lemma insertDT_inv (dt : DynTable) (h : HeaderField) :
    sizeSum (insertDT dt h).entries ≤ (insertDT dt h).capacity ∧
      (insertDT dt h).capacity = dt.capacity := by
  unfold insertDT
  by_cases hc : dt.capacity < hfSize h
  · simp [hc, sizeSum]
  · have hfit := evictRev_fits dt.capacity (hfSize h) dt.entries.reverse
      (Nat.le_of_not_lt hc)
    simp only [hc, if_false]
    refine ⟨?_, by trivial⟩
    show sizeSum (h :: (evictRev dt.capacity (hfSize h) dt.entries.reverse).reverse) ≤
      dt.capacity
    rw [sizeSum, sizeSum_reverse]
    omega

/-- Every dynamic-table entry weighs at least 32 bytes, bounding the entry
count by the table size. -/
lemma sizeSum_ge_len (l : List HeaderField) : 32 * l.length ≤ sizeSum l := by
  induction l with
  | nil => simp [sizeSum]
  | cons a rest ih =>
    simp only [sizeSum, hfSize, List.length_cons]
    omega

/-- `encodeHeaderB` preserves the table invariant: the table stays within its
capacity and the capacity is unchanged. -/
lemma encodeHeaderB_inv (dt : DynTable) (h : HeaderField)
    (hinv : sizeSum dt.entries ≤ dt.capacity) :
    sizeSum (encodeHeaderB dt h).2.entries ≤ (encodeHeaderB dt h).2.capacity ∧
      (encodeHeaderB dt h).2.capacity = dt.capacity := by
  unfold encodeHeaderB
  rcases findExactIdx dt h with _ | i
  · rcases findNameIdx dt h.name with _ | i <;>
      simpa using insertDT_inv dt h
  · exact ⟨hinv, rfl⟩

/-- The index returned by either `find` stays far below the integer safety
ceiling while the table respects its (at most default) capacity. -/
lemma findIdx_le_intMax (dt : DynTable) (i : Nat)
    (hinv : sizeSum dt.entries ≤ dt.capacity) (hcap : dt.capacity ≤ kTableSize)
    (hi : i ≤ staticTable.length + dt.entries.length) : i ≤ intMax := by
  have hlen := sizeSum_ge_len dt.entries
  have h61 : staticTable.length = 61 := rfl
  have hk : kTableSize = 4096 := rfl
  have hM : (4096 : Nat) ≤ intMax := by norm_num [intMax]
  omega

/-- One decoded representation undoes one encoded header: decoding the bytes
`encodeHeaderB` emits, against the same (synchronized) table, emits exactly
that header, consumes exactly those bytes, and applies exactly the table
mutation the encoder applied. -/
lemma decodeOne_step (dt : DynTable) (h : HeaderField) (tail : List Nat)
    (hinv : sizeSum dt.entries ≤ dt.capacity) (hcap : dt.capacity ≤ kTableSize)
    (hn : h.name.length ≤ intMax) (hv : h.value.length ≤ intMax) :
    decodeOne ((encodeHeaderB dt h).1 ++ tail) dt =
      .ok (some h, tail, (encodeHeaderB dt h).2) := by
  rcases hex : findExactIdx dt h with _ | i
  · rcases hname : findNameIdx dt h.name with _ | i
    · -- literal with literal name
      have hEB : encodeHeaderB dt h =
          (encodeInt 6 64 0 ++ encodeStr h.name ++ encodeStr h.value,
           insertDT dt h) := by
        unfold encodeHeaderB
        rw [hex, hname]
      rw [hEB]
      have h0 : encodeInt 6 64 0 = [64] := rfl
      have hdecn := decodeStr_encodeStr h.name (encodeStr h.value ++ tail) hn
      have hdecv := decodeStr_encodeStr h.value tail hv
      simp only [h0, List.append_assoc, List.cons_append, List.nil_append]
      have hd6 := decodeInt_encodeInt 6 1 0
        (encodeStr h.name ++ (encodeStr h.value ++ tail)) (by norm_num [intMax])
      rw [show (1 : Nat) * 2 ^ 6 = 64 by norm_num] at hd6
      rw [h0] at hd6
      simp only [List.cons_append, List.nil_append] at hd6
      simp only [decodeOne, if_neg (by omega : ¬(128 ≤ 64)),
        if_pos (by omega : 64 ≤ 64), hd6, if_pos rfl, hdecn, hdecv, if_true]
    · -- literal with name reference
      have hEB : encodeHeaderB dt h =
          (encodeInt 6 64 i ++ encodeStr h.value, insertDT dt h) := by
        unfold encodeHeaderB
        rw [hex, hname]
      obtain ⟨hi1, hi2, e, hlook, hename⟩ := findName_lookup dt h.name i hname
      have hiMax : i ≤ intMax := findIdx_le_intMax dt i hinv hcap hi2
      obtain ⟨b, bt, hE, hb1, hb2⟩ := encodeInt_cons 6 64 i
      have hb2' : b ≤ 127 := by
        have : (2 : Nat) ^ 6 - 1 = 63 := by norm_num
        omega
      have hdec := decodeInt_encodeInt 6 1 i (encodeStr h.value ++ tail) hiMax
      rw [show (1 : Nat) * 2 ^ 6 = 64 by norm_num, hE] at hdec
      simp only [List.cons_append] at hdec
      have hdecv := decodeStr_encodeStr h.value tail hv
      rw [hEB, hE]
      simp only [List.append_assoc, List.cons_append]
      simp only [decodeOne, if_neg (by omega : ¬(128 ≤ b)),
        if_pos (by omega : 64 ≤ b), hdec, if_neg (by omega : ¬(i = 0)),
        hlook, hdecv]
      rw [hename]
  · -- indexed representation
    have hEB : encodeHeaderB dt h = (encodeInt 7 128 i, dt) := by
      unfold encodeHeaderB
      rw [hex]
    obtain ⟨hi1, hi2, hlook⟩ := findExact_lookup dt h i hex
    have hiMax : i ≤ intMax := findIdx_le_intMax dt i hinv hcap hi2
    obtain ⟨b, bt, hE, hb1, hb2⟩ := encodeInt_cons 7 128 i
    have hdec := decodeInt_encodeInt 7 1 i tail hiMax
    rw [show (1 : Nat) * 2 ^ 7 = 128 by norm_num, hE] at hdec
    simp only [List.cons_append] at hdec
    rw [hEB, hE]
    simp only [List.cons_append]
    simp only [decodeOne, if_pos (by omega : 128 ≤ b), hdec, hlook]

/-- `encodeInt` never produces an empty byte list. -/
lemma encodeInt_ne_nil (p flags v : Nat) : encodeInt p flags v ≠ [] := by
  obtain ⟨b, bt, hE, _, _⟩ := encodeInt_cons p flags v
  simp [hE]

/-- Every representation the encoder emits occupies at least one byte. -/
lemma encodeHeaderB_ne_nil (dt : DynTable) (h : HeaderField) :
    (encodeHeaderB dt h).1 ≠ [] := by
  unfold encodeHeaderB
  rcases findExactIdx dt h with _ | i
  · rcases findNameIdx dt h.name with _ | i
    · obtain ⟨b, bt, hE, _, _⟩ := encodeInt_cons 6 64 0
      simp [hE]
    · obtain ⟨b, bt, hE, _, _⟩ := encodeInt_cons 6 64 i
      simp [hE]
  · exact encodeInt_ne_nil 7 128 i

/-- An encoded block is at least one byte per header. -/
lemma encodeBlock_len_ge (M : List HeaderField) (dt : DynTable) :
    M.length ≤ (encodeBlock M dt).1.length := by
  induction M generalizing dt with
  | nil => simp [encodeBlock]
  | cons h rest ih =>
    simp only [encodeBlock, List.length_append, List.length_cons]
    have h1 : 1 ≤ (encodeHeaderB dt h).1.length := by
      rcases hE : (encodeHeaderB dt h).1 with _ | ⟨a, l⟩
      · exact absurd hE (encodeHeaderB_ne_nil dt h)
      · simp
    have h2 := ih (encodeHeaderB dt h).2
    omega

/-- Streaming decode undoes a whole encoded block: against the synchronized
initial table it emits exactly the encoded headers, finishes the remaining
input with the final (synchronized) table, and leaves the terminal signal to
the continuation. -/
lemma decodeLoop_encodeBlock (M : List HeaderField) :
    ∀ (dt : DynTable) (fuel : Nat) (rest : List Nat),
      sizeSum dt.entries ≤ dt.capacity → dt.capacity ≤ kTableSize →
      (∀ h ∈ M, h.name.length ≤ intMax ∧ h.value.length ≤ intMax) →
      M.length ≤ fuel →
      decodeLoop fuel ((encodeBlock M dt).1 ++ rest) dt =
        (M ++ (decodeLoop (fuel - M.length) rest (encodeBlock M dt).2).1,
         (decodeLoop (fuel - M.length) rest (encodeBlock M dt).2).2.1,
         (decodeLoop (fuel - M.length) rest (encodeBlock M dt).2).2.2) := by
  induction M with
  | nil =>
    intro dt fuel rest hinv hcap hval hfuel
    simp [encodeBlock]
  | cons h M' ih =>
    intro dt fuel rest hinv hcap hval hfuel
    rcases fuel with _ | f
    · simp at hfuel
    have hstep := decodeOne_step dt h
      ((encodeBlock M' (encodeHeaderB dt h).2).1 ++ rest) hinv hcap
      (hval h (by simp)).1 (hval h (by simp)).2
    obtain ⟨hinv', hcapeq⟩ := encodeHeaderB_inv dt h hinv
    have hcap' : (encodeHeaderB dt h).2.capacity ≤ kTableSize := by
      rw [hcapeq]; exact hcap
    obtain ⟨b, bt, hBB⟩ : ∃ b bt, (encodeHeaderB dt h).1 = b :: bt := by
      rcases hE : (encodeHeaderB dt h).1 with _ | ⟨a, l⟩
      · exact absurd hE (encodeHeaderB_ne_nil dt h)
      · exact ⟨a, l, rfl⟩
    rw [hBB] at hstep
    simp only [List.cons_append] at hstep
    have hIH := ih (encodeHeaderB dt h).2 f rest hinv' hcap'
      (fun g hg => hval g (by simp [hg])) (by simpa using Nat.succ_le_succ_iff.mp hfuel)
    simp only [encodeBlock, List.append_assoc, hBB, List.cons_append]
    simp only [decodeLoop, hstep, hIH, Option.toList_some, List.cons_append,
      List.nil_append, Nat.succ_sub_succ]
    simp

/-- A code that is not per-hop is `DATE` or `OTHER`. -/
lemma perHop_false_cases (c : HCode) (h : perHopCode c = false) :
    c = HCode.DATE ∨ c = HCode.OTHER := by
  cases c <;> simp_all [perHopCode]

/-- A code that is not per-hop is not `HOST`. -/
lemma perHop_false_not_host (c : HCode) (h : perHopCode c = false) :
    (c == HCode.HOST) = false := by
  cases c <;> simp_all [perHopCode]

/-- Every field the regular-header loop emits has a name that does not start
with a colon. -/
lemma encodeRegularAux_colonFree (hs : List (String × String)) (d : Bool) :
    ∀ p ∈ (encodeRegularAux hs d).1, startsWithColon p.1 = false := by
  induction hs generalizing d with
  | nil => simp [encodeRegularAux]
  | cons hv rest ih =>
    obtain ⟨n, v⟩ := hv
    by_cases hg : (perHopCode (headerCode n) || n == "" || startsWithColon n) = true
    · simp only [encodeRegularAux, hg, if_true]
      exact ih d
    · have hg' : (perHopCode (headerCode n) || n == "" || startsWithColon n) = false :=
        Bool.eq_false_iff.mpr hg
      have hg2 := hg'
      rw [Bool.or_eq_false_iff, Bool.or_eq_false_iff] at hg2
      obtain ⟨⟨h1, h2⟩, h3⟩ := hg2
      have hinner :
          ((!(n == "") && !startsWithColon n) && !(headerCode n == HCode.HOST)) = true := by
        rw [h2, h3, perHop_false_not_host _ h1]
        rfl
      intro p hp
      simp only [encodeRegularAux, hg', Bool.false_eq_true, if_false, hinner,
        if_true, List.singleton_append, List.mem_cons] at hp
      rcases hp with rfl | hp
      · rcases perHop_false_cases _ h1 with hc | hc <;> rw [hc]
        · rfl
        · simpa [codeEmitName] using h3
      · exact ih _ p hp

/-- The regular-header loop emits exactly the original header sequence,
filtered by the exclusion rule (per-hop code, empty name, pseudo-shaped
name), each kept field under the name its code is emitted as. -/
lemma encodeRegularAux_filter (hs : List (String × String)) (d : Bool) :
    (encodeRegularAux hs d).1 =
      (hs.filter fun p =>
        !(perHopCode (headerCode p.1) || p.1 == "" || startsWithColon p.1)).map
        fun p => (codeEmitName (headerCode p.1) p.1, p.2) := by
  induction hs generalizing d with
  | nil => simp [encodeRegularAux]
  | cons hv rest ih =>
    obtain ⟨n, v⟩ := hv
    by_cases hg : (perHopCode (headerCode n) || n == "" || startsWithColon n) = true
    · simp only [encodeRegularAux, hg, if_true, List.filter_cons, Bool.not_true,
        Bool.false_eq_true, if_false]
      exact ih d
    · have hg' : (perHopCode (headerCode n) || n == "" || startsWithColon n) = false :=
        Bool.eq_false_iff.mpr hg
      have hg2 := hg'
      rw [Bool.or_eq_false_iff, Bool.or_eq_false_iff] at hg2
      obtain ⟨⟨h1, h2⟩, h3⟩ := hg2
      have hinner :
          ((!(n == "") && !startsWithColon n) && !(headerCode n == HCode.HOST)) = true := by
        rw [h2, h3, perHop_false_not_host _ h1]
        rfl
      simp only [encodeRegularAux, hg', Bool.false_eq_true, if_false, hinner,
        if_true, List.filter_cons, Bool.not_false, List.map_cons,
        List.singleton_append, List.cons.injEq]
      exact ⟨trivial, ih _⟩

/-- Claim C2: `encodeHTTP` emits the pseudo-headers first and in canonical
order — for a request `:method` (or CONNECT plus `:protocol` for a websocket
upgrade), then `:scheme` and `:path` unless a bare CONNECT, then `:authority`
when a Host value is present; for a response `:status` — and everything that
follows is a regular field whose name does not start with a colon. -/
theorem encodeHTTP_pseudo_first (msg : HTTPMsg) :
    ∃ tail,
      encodeHTTPFields msg =
        (if msg.isRequest then
           (if msg.egressWebsocketUpgrade then
              [(":method", "CONNECT"), (":protocol", "websocket")]
            else [(":method", msg.method)]) ++
           (if !(msg.method == "CONNECT") || msg.egressWebsocketUpgrade then
              [(":scheme", if msg.secure then "https" else "http"),
               (":path", msg.url)]
            else []) ++
           (if !(getSingleOrEmptyHost msg.headers == "") then
              [(":authority", getSingleOrEmptyHost msg.headers)]
            else [])
         else
           if msg.egressWebsocketUpgrade then [(":status", "200")]
           else [(":status", toString msg.statusCode)]) ++ tail ∧
      ∀ p ∈ tail, startsWithColon p.1 = false := by
  refine ⟨(encodeRegularAux msg.headers false).1 ++
    (if !msg.isRequest && !(encodeRegularAux msg.headers false).2 then
       [("date", formatDateHeader)]
     else []), ?_, ?_⟩
  · simp [encodeHTTPFields]
  · intro p hp
    rcases List.mem_append.mp hp with hp | hp
    · exact encodeRegularAux_colonFree _ _ p hp
    · rcases hdate : (!msg.isRequest && !(encodeRegularAux msg.headers false).2) with _ | _
      · rw [hdate] at hp
        simp at hp
      · rw [hdate] at hp
        simp only [if_true, List.mem_singleton] at hp
        rw [hp]
        decide

/-- Claim C3: `encodeHTTP` emits the regular fields in their original order,
excluding exactly the fields with an empty name, a name beginning with a
colon, or a per-hop code (connection, host, keep-alive, proxy-connection,
transfer-encoding, upgrade, sec-websocket-key, sec-websocket-accept); every
other regular field is emitted. The regular section sits between the
pseudo-header prefix and an optional synthesized date field. -/
theorem encodeHTTP_regular_filtered (msg : HTTPMsg) :
    encodeHTTPFields msg =
      (if msg.isRequest then
         (if msg.egressWebsocketUpgrade then
            [(":method", "CONNECT"), (":protocol", "websocket")]
          else [(":method", msg.method)]) ++
         (if !(msg.method == "CONNECT") || msg.egressWebsocketUpgrade then
            [(":scheme", if msg.secure then "https" else "http"),
             (":path", msg.url)]
          else []) ++
         (if !(getSingleOrEmptyHost msg.headers == "") then
            [(":authority", getSingleOrEmptyHost msg.headers)]
          else [])
       else
         if msg.egressWebsocketUpgrade then [(":status", "200")]
         else [(":status", toString msg.statusCode)]) ++
      ((msg.headers.filter fun p =>
         !(perHopCode (headerCode p.1) || p.1 == "" ||
           startsWithColon p.1)).map
        fun p => (codeEmitName (headerCode p.1) p.1, p.2)) ++
      (if !msg.isRequest && !(encodeRegularAux msg.headers false).2 then
         [("date", formatDateHeader)]
       else []) := by
  rw [← encodeRegularAux_filter msg.headers false]
  rfl

/-- Claim C4 (code bug): a response carrying a `Date` header that is not the
last header still gets a synthesized date appended, because the loop
overwrites `hasDateHeader` per header instead of accumulating it. -/
theorem encodeHTTP_date_bug :
    (msgDateBug.headers.any fun p => headerCode p.1 == HCode.DATE) = true ∧
      encodeHTTPFields msgDateBug =
        [(":status", "200"), ("date", "Mon, 01 Jan 2024 00:00:00 GMT"),
         ("X-Foo", "bar"), ("date", formatDateHeader)] := by decide

/-- Claim C1 (counterexample): the raw-list path performs no canonicalization
beyond lowercasing — a `Connection` header survives `decode(encode(L))`
unchanged (lowercased), so the result differs from the claimed canonicalized
form, which would have removed this per-hop field. -/
theorem hpack_roundtrip_claim_cx :
    (decodeBlock (codecEncode rtInput dt0).1 dt0).1 ≠ specCanonicalize rtInput := by
  decide

/-- Claim C1 (amended): for every header list with name and value lengths
within the integer safety ceiling, decoding the byte stream produced by the
raw-list encode yields exactly the input with names lowercased — pseudo-header
relocation and per-hop removal apply only to the structured-message path, not
here — with a success terminal and the decoder table equal to the encoder
table. -/
theorem hpack_roundtrip_lowercased (L : List HeaderField)
    (hval : ∀ h ∈ L, h.name.length ≤ intMax ∧ h.value.length ≤ intMax) :
    decodeBlock (codecEncode L dt0).1 dt0 =
      (L.map (fun h => (⟨lowerBytes h.name, h.value⟩ : HeaderField)),
       (codecEncode L dt0).2.1, .ok ()) := by
  have hprep : (prepareHeaders L).1 = L.map hpackHeaderOf := prepareHeaders_list L
  have hval' : ∀ h ∈ (prepareHeaders L).1,
      h.name.length ≤ intMax ∧ h.value.length ≤ intMax := by
    rw [hprep]
    intro h hh
    rw [List.mem_map] at hh
    obtain ⟨g, hg, rfl⟩ := hh
    have hb := hval g hg
    simpa [hpackHeaderOf, lowerBytes] using hb
  have hmain := decodeLoop_encodeBlock (prepareHeaders L).1 dt0
    ((encodeBlock (prepareHeaders L).1 dt0).1.length) []
    (by simp [dt0, sizeSum]) (by simp [dt0]) hval'
    (encodeBlock_len_ge _ _)
  simp only [List.append_nil, decodeLoop] at hmain
  unfold decodeBlock codecEncode
  rw [hmain, hprep]
  simp [hpackHeaderOf]

/-- Claim C1 (witness): the amended round-trip at the concrete input. -/
theorem hpack_roundtrip_lowercased_witness :
    (∀ h ∈ rtInput, h.name.length ≤ intMax ∧ h.value.length ≤ intMax) ∧
      decodeBlock (codecEncode rtInput dt0).1 dt0 =
        (rtInput.map (fun h => (⟨lowerBytes h.name, h.value⟩ : HeaderField)),
         (codecEncode rtInput dt0).2.1, .ok ()) :=
  ⟨by decide, hpack_roundtrip_lowercased rtInput (by decide)⟩
